import Mathlib

/-!
Shallow embedding of the `ticktalk` analytics server (src/analytics/main.py)
and proofs about its market-structure analytics.

Time is modelled as an integer count of milliseconds on a UTC timeline whose
origin is a Monday 00:00:00 UTC (Python's proleptic-Gregorian day 1,
0001-01-01, is a Monday, so `weekday()` of an instant `t` is
`(t / msPerDay) % 7` with Monday = 0).  Python's `//` and `%` on a positive
divisor agree with Lean's `/` and `%` on `ℤ` (both give a remainder in
`[0, divisor)`), so the arithmetic below is exactly the source's.

Prices are modelled as `ℚ`; price fields read out of JSON bars are `Option ℚ`
where the source checks for `None`.
-/

def msPerHour : ℤ := 3600000

def msPerDay : ℤ := 86400000

def msPerWeek : ℤ := 7 * 86400000

/-- Result record of `cme_weekend_status`. -/
structure WeekendStatus where
  closed : Bool
  fridayClose : ℤ
  sundayOpen : ℤ
  deriving Repr, DecidableEq

/-- `cme_weekend_status(dt_utc)` from src/analytics/main.py:
Fri 20:00Z close to Sun 22:00Z open; boundaries are OPEN. -/
def cme_weekend_status (t : ℤ) : WeekendStatus :=
  let weekday := (t / msPerDay) % 7
  let base := (t / msPerDay) * msPerDay
  let days_to_fri := (4 - weekday) % 7
  let friday0 := base + days_to_fri * msPerDay
  let friday := if t < friday0 then friday0 - msPerWeek else friday0
  let fri_close := friday + 20 * msPerHour
  let sun_open := friday + 2 * msPerDay + 22 * msPerHour
  { closed := decide (fri_close < t ∧ t < sun_open)
  , fridayClose := fri_close
  , sundayOpen := sun_open }

/-- `_clip_for_weekend(req_start_dt, req_end_dt, status)` from
src/analytics/main.py: returns (effective_start, effective_end, clipped?);
clips only if inside the gap. -/
def _clip_for_weekend (req_start_dt req_end_dt : ℤ) (status : WeekendStatus) :
    ℤ × ℤ × Bool :=
  if status.closed then
    let new_end := min status.fridayClose req_end_dt
    let new_start := max (new_end - (req_end_dt - req_start_dt))
      (new_end - 7 * msPerDay)
    (new_start, new_end, true)
  else (req_start_dt, req_end_dt, false)

/-- Outcome of the weekend-guard block shared by `api_vwap` and
`api_indicators` (after `auto_window` defaulting has been resolved). -/
inductive GuardOutcome where
  | marketClosed : GuardOutcome
  | proceed (effStart effEnd : ℤ) (windowAdjusted : Bool) : GuardOutcome
  deriving Repr, DecidableEq

/-- The weekend-guard block of `api_vwap` / `api_indicators`
(src/analytics/main.py): if the market is closed at the requested end,
a guard that is on without auto-window rejects with the `MarketClosed`
condition (HTTP 409); with auto-window the window is clipped; otherwise the
requested window passes through unadjusted. -/
def weekend_guard (status : WeekendStatus) (guard_on auto_window : Bool)
    (req_start_dt req_end_dt : ℤ) : GuardOutcome :=
  if status.closed then
    if guard_on && !auto_window then .marketClosed
    else if auto_window then
      let r := _clip_for_weekend req_start_dt req_end_dt status
      .proceed r.1 r.2.1 r.2.2
    else .proceed req_start_dt req_end_dt false
  else .proceed req_start_dt req_end_dt false

/-! ## Indicators (src/analytics/main.py, `ema` / `rsi` / `compute_vwap`)

`length` comes from a query parameter parsed with Python `int(...)`, so it is
modelled as `ℤ` (it can be zero or negative, which the functions guard). -/

/-- The body of `ema`'s loop, written as structural recursion on the
remaining values.  The state is the enumeration index `i` together with
`e : Option ℚ` (`None` until the seed fires).  `vals` is the full input list
(the seed reads `values[:length]` from it). -/
def emaLoop (vals : List ℚ) (k : ℚ) (L : ℕ) :
    List ℚ → ℕ → Option ℚ → List (Option ℚ)
  | [], _, _ => []
  | v :: rest, i, none =>
    if L - 1 ≤ i then
      let e0 := (vals.take L).sum / (L : ℚ)
      let e1 := (v - e0) * k + e0
      some e1 :: emaLoop vals k L rest (i + 1) (some e1)
    else none :: emaLoop vals k L rest (i + 1) none
  | v :: rest, i, some e =>
    let e1 := (v - e) * k + e
    some e1 :: emaLoop vals k L rest (i + 1) (some e1)

/-- `ema(values, length)` from src/analytics/main.py.  Note that in the
source, the iteration that seeds `e` with the SMA of the first `length`
values then *falls through* to the update `e = (v - e) * k + e` before
appending, so the emitted value at the seed index is the update applied to
the SMA, not the SMA itself. -/
def ema (values : List ℚ) (length : ℤ) : List (Option ℚ) :=
  if length ≤ 0 then values.map fun _ => none
  else emaLoop values (2 / ((length : ℚ) + 1)) length.toNat values 0 none

/-- One iteration of `rsi`'s main loop: state is (output so far, avg gain,
avg loss).  The `ag`/`al` slots are read only at indices `> length`, after
the seed at index `length` wrote them. -/
def rsiStep (gains losses : List ℚ) (L : ℕ)
    (st : List (Option ℚ) × ℚ × ℚ) (i : ℕ) : List (Option ℚ) × ℚ × ℚ :=
  if i < L then (st.1 ++ [none], st.2.1, st.2.2)
  else
    let ag := if i = L then ((gains.drop 1).take L).sum / (L : ℚ)
      else (st.2.1 * ((L : ℚ) - 1) + gains.getD i 0) / (L : ℚ)
    let al := if i = L then ((losses.drop 1).take L).sum / (L : ℚ)
      else (st.2.2 * ((L : ℚ) - 1) + losses.getD i 0) / (L : ℚ)
    let v : Option ℚ :=
      if al = 0 then some 100 else some (100 - 100 / (1 + ag / al))
    (st.1 ++ [v], ag, al)

/-- `rsi(values, length)` from src/analytics/main.py (Wilder smoothing). -/
def rsi (values : List ℚ) (length : ℤ) : List (Option ℚ) :=
  if length ≤ 0 then values.map fun _ => none
  else
    let gains := 0 :: List.zipWith (fun a b => max (b - a) 0)
      values (values.drop 1)
    let losses := 0 :: List.zipWith (fun a b => max (a - b) 0)
      values (values.drop 1)
    ((List.range values.length).foldl
      (rsiStep gains losses length.toNat) ([], 0, 0)).1

/-- A bar as consumed by `compute_vwap`: the source coerces each field with
`_f(_gx(...))` (missing → `0.0`), so fields are total here. -/
structure VwapBar where
  h : ℚ
  l : ℚ
  c : ℚ
  v : ℚ
  t : ℕ
  deriving Repr, DecidableEq

/-- One row of the `compute_vwap` output series. -/
structure VwapPoint where
  time : ℕ
  typicalPrice : ℚ
  vwap : ℚ
  close : ℚ
  volume : ℚ
  deriving Repr, DecidableEq

/-- Result of `compute_vwap`. -/
structure VwapResult where
  final : ℚ
  series : List VwapPoint
  count : ℕ
  deriving Repr, DecidableEq

/-- The loop of `compute_vwap`, carrying the running sums `cum_pv`, `cum_v`. -/
def vwapGo (cum_pv cum_v : ℚ) : List VwapBar → List VwapPoint
  | [] => []
  | b :: rest =>
    let tp := (b.h + b.l + b.c) / 3
    let pv := cum_pv + tp * b.v
    let cv := cum_v + b.v
    let w := if 0 < cv then pv / cv else 0
    ⟨b.t, tp, w, b.c, b.v⟩ :: vwapGo pv cv rest

/-- `compute_vwap(bars)` from src/analytics/main.py: cumulative-from-start
volume-weighted average of typical price. -/
def compute_vwap (bars : List VwapBar) : VwapResult :=
  let series := vwapGo 0 0 bars
  { final := (series.getLast?.map VwapPoint.vwap).getD 0
  , series := series
  , count := series.length }

/-! ## Swings, breaches, fair value gaps (src/analytics/main.py lines 21-87) -/

/-- A bar as consumed by `_swing_points` (fields `h`, `l`, `t` present). -/
structure SwingBar where
  h : ℚ
  l : ℚ
  t : ℕ
  deriving Repr, DecidableEq

/-- Kind tag of a swing point (`"swing_high"` / `"swing_low"`). -/
inductive SwingType where
  | swing_high : SwingType
  | swing_low : SwingType
  deriving Repr, DecidableEq

/-- One element of the `_swing_points` output list. -/
structure Swing where
  ty : SwingType
  idx : ℕ
  price : ℚ
  time : ℕ
  deriving Repr, DecidableEq

/-- Out-of-range placeholder for `List.getD`; every access in
`_swing_points` is in range, so it is never read. -/
def swingDefault : SwingBar := ⟨0, 0, 0⟩

/-- `_swing_points(bars, left, right)` from src/analytics/main.py (the copy
in src/analytics/context_api.py is identical): for each `i` in
`range(left, n - right)` classify `i` as a swing high when its high is ≥
every neighbor high within `left`/`right` bars on both sides, and as a swing
low when its low is ≤ every neighbor low on both sides. -/
def _swing_points (bars : List SwingBar) (left right : ℕ) : List Swing :=
  (List.range' left (bars.length - right - left)).flatMap fun i =>
    let bi := bars.getD i swingDefault
    let hi := ((List.range' 1 left).all fun k =>
        decide ((bars.getD (i - k) swingDefault).h ≤ bi.h))
      && ((List.range' 1 right).all fun k =>
        decide ((bars.getD (i + k) swingDefault).h ≤ bi.h))
    let lo := ((List.range' 1 left).all fun k =>
        decide (bi.l ≤ (bars.getD (i - k) swingDefault).l))
      && ((List.range' 1 right).all fun k =>
        decide (bi.l ≤ (bars.getD (i + k) swingDefault).l))
    (if hi then [⟨.swing_high, i, bi.h, bi.t⟩] else [])
      ++ (if lo then [⟨.swing_low, i, bi.l, bi.t⟩] else [])

/-- A 15m JSON bar as consumed by `_find_fvgs_15m`, `_mark_fvg_fills` and
`_breached_after`: `h`/`l`/`t` may be missing (`None`). -/
structure Bar15 where
  h : Option ℚ
  l : Option ℚ
  t : Option ℕ
  deriving Repr, DecidableEq

/-- The breach-noise epsilon `1e-9` used by `_breached_after`. -/
def breachEps : ℚ := 1 / 1000000000

/-- The inner loop of `_breached_after`, scanning `bars[start_idx+1:]`. -/
def breachScan (level_price : ℚ) (breach_type : SwingType) :
    List Bar15 → Bool × Option ℕ
  | [] => (false, none)
  | b :: rest =>
    if breach_type = .swing_high ∧
        (∃ h, b.h = some h ∧ level_price + breachEps < h) then (true, b.t)
    else if breach_type = .swing_low ∧
        (∃ l, b.l = some l ∧ l < level_price - breachEps) then (true, b.t)
    else breachScan level_price breach_type rest

/-- `_breached_after(bars, level_price, start_idx, breach_type)` from
src/analytics/main.py: a swing high is breached by a strictly later bar
whose high exceeds the level by more than `1e-9`; a swing low by a strictly
later low more than `1e-9` below. -/
def _breached_after (bars : List Bar15) (level_price : ℚ) (start_idx : ℕ)
    (breach_type : SwingType) : Bool × Option ℕ :=
  breachScan level_price breach_type (bars.drop (start_idx + 1))

/-- Direction tag of a fair value gap. -/
inductive GapType where
  | bullish : GapType
  | bearish : GapType
  deriving Repr, DecidableEq

/-- One element of the `_find_fvgs_15m` output list.  `lo`/`hi` are the
source's `start`/`end` keys (its lower and upper price bounds). -/
structure Gap where
  ty : GapType
  bar_index : ℕ
  lo : ℚ
  hi : ℚ
  formed_at : Option ℕ
  filled : Bool
  filled_at : Option ℕ
  deriving Repr, DecidableEq

/-- The body of `_find_fvgs_15m`'s loop at one index `i`: compare bar `i-2`
(anchor) and bar `i` (confirm); skip if any of the four price fields is
missing; a bullish gap `[anchor.h, confirm.l]` when `confirm.l > anchor.h`,
a bearish gap `[confirm.h, anchor.l]` when `confirm.h < anchor.l`. -/
def fvgsAt (bars15 : List Bar15) (i : ℕ) : List Gap :=
  match bars15.get? (i - 2), bars15.get? i with
  | some a, some c =>
    match a.h, a.l, c.h, c.l with
    | some ah, some al, some ch, some cl =>
      (if ah < cl then [⟨.bullish, i, ah, cl, c.t, false, none⟩] else [])
        ++ (if ch < al then [⟨.bearish, i, ch, al, c.t, false, none⟩] else [])
    | _, _, _, _ => []
  | _, _ => []

/-- `_find_fvgs_15m(bars15)` from src/analytics/main.py: three-candle fair
value gaps, looping `i` over `range(2, len(bars15))`. -/
def _find_fvgs_15m (bars15 : List Bar15) : List Gap :=
  (List.range' 2 (bars15.length - 2)).flatMap (fvgsAt bars15)

/-- The inner loop of `_mark_fvg_fills` for one gap: scan the subsequent
bars in order, skip bars missing `h` or `l`, and on the first bar whose
range overlaps the gap bounds (`l ≤ end AND h ≥ start`) set
`filled`/`filled_at` and stop. -/
def markFvgFill (g : Gap) : List Bar15 → Gap
  | [] => g
  | ⟨some h, some l, bt⟩ :: rest =>
    if l ≤ g.hi ∧ g.lo ≤ h then { g with filled := true, filled_at := bt }
    else markFvgFill g rest
  | ⟨some _, none, _⟩ :: rest => markFvgFill g rest
  | ⟨none, _, _⟩ :: rest => markFvgFill g rest

/-- `_mark_fvg_fills(gaps, subsequent_bars)` from src/analytics/main.py:
each gap is scanned independently against the subsequent bars. -/
def _mark_fvg_fills (gaps : List Gap) (subsequent_bars : List Bar15) :
    List Gap :=
  gaps.map fun g => markFvgFill g subsequent_bars

/-- A bar overlaps a gap's bounds when both price fields are present and
`bar.low ≤ upperBound AND bar.high ≥ lowerBound`. -/
def gapOverlaps (g : Gap) (b : Bar15) : Prop :=
  ∃ h l, b.h = some h ∧ b.l = some l ∧ l ≤ g.hi ∧ g.lo ≤ h

/-! ## Helper lemmas -/

/-- The "most recent Friday 00:00 UTC" midnight computed inside
`cme_weekend_status` (its `friday` local). -/
def fridayOf (t : ℤ) : ℤ :=
  let q := t / msPerDay
  let friday0 := q * msPerDay + ((4 - q % 7) % 7) * msPerDay
  if t < friday0 then friday0 - msPerWeek else friday0

lemma cme_weekend_status_fridayOf (t : ℤ) :
    cme_weekend_status t =
      { closed := decide (fridayOf t + 20 * msPerHour < t ∧
          t < fridayOf t + 2 * msPerDay + 22 * msPerHour)
      , fridayClose := fridayOf t + 20 * msPerHour
      , sundayOpen := fridayOf t + 2 * msPerDay + 22 * msPerHour } := by
  simp only [cme_weekend_status, fridayOf]

lemma closed_eq_true_iff (t : ℤ) :
    (cme_weekend_status t).closed = true ↔
      (fridayOf t + 20 * msPerHour < t ∧
        t < fridayOf t + 2 * msPerDay + 22 * msPerHour) := by
  rw [cme_weekend_status_fridayOf]
  simp

lemma fridayOf_residue (t : ℤ) : fridayOf t % msPerWeek = 4 * msPerDay := by
  simp only [fridayOf, msPerWeek, msPerDay]
  split <;> omega

lemma fridayOf_bounds (t : ℤ) :
    t - msPerWeek < fridayOf t ∧ fridayOf t ≤ t := by
  simp only [fridayOf, msPerWeek, msPerDay]
  have h1 : 86400000 * (t / 86400000) + t % 86400000 = t :=
    Int.ediv_add_emod t 86400000
  have h2 : 0 ≤ t % 86400000 := Int.emod_nonneg t (by norm_num)
  have h3 : t % 86400000 < 86400000 := Int.emod_lt_of_pos t (by norm_num)
  split <;> omega

/-- C2: for every UTC instant `t`, the weekend gap detector reports
`closed = true` exactly when `t` lies strictly between a Friday 20:00:00 UTC
(an instant `≡ 4 days + 20 h (mod 1 week)` on the Monday-epoch timeline) and
the following Sunday 22:00:00 UTC (50 hours later), and it reports
`closed = false` at both boundary instants themselves; this holds for every
day-of-week input. -/
theorem cme_weekend_status_closed_iff (t : ℤ) :
    ((cme_weekend_status t).closed = true ↔
      ∃ k : ℤ, k * msPerWeek + (4 * msPerDay + 20 * msPerHour) < t ∧
        t < k * msPerWeek + (4 * msPerDay + 20 * msPerHour) + 50 * msPerHour) ∧
    (∀ k : ℤ,
      (cme_weekend_status
        (k * msPerWeek + (4 * msPerDay + 20 * msPerHour))).closed = false ∧
      (cme_weekend_status
        (k * msPerWeek + (4 * msPerDay + 20 * msPerHour)
          + 50 * msPerHour)).closed = false) := by
  constructor
  · rw [closed_eq_true_iff]
    have hres := fridayOf_residue t
    have hbnd := fridayOf_bounds t
    constructor
    · rintro ⟨h1, h2⟩
      refine ⟨(fridayOf t - 4 * msPerDay) / msPerWeek, ?_, ?_⟩ <;>
        simp only [msPerWeek, msPerDay, msPerHour] at * <;> omega
    · rintro ⟨k, h1, h2⟩
      simp only [msPerWeek, msPerDay, msPerHour] at *
      omega
  · intro k
    constructor <;>
    · rw [Bool.eq_false_iff, ne_eq, closed_eq_true_iff]
      have hres := fridayOf_residue
        (k * msPerWeek + (4 * msPerDay + 20 * msPerHour))
      have hbnd := fridayOf_bounds
        (k * msPerWeek + (4 * msPerDay + 20 * msPerHour))
      have hres2 := fridayOf_residue
        (k * msPerWeek + (4 * msPerDay + 20 * msPerHour) + 50 * msPerHour)
      have hbnd2 := fridayOf_bounds
        (k * msPerWeek + (4 * msPerDay + 20 * msPerHour) + 50 * msPerHour)
      simp only [msPerWeek, msPerDay, msPerHour] at *
      omega

/-- C3: for every requested window `[s, e)` with `s ≤ e`, when the closure
status at `e` is not closed the resolver passes the window through unchanged
with no adjustment reported; when closed (clipping applies) it returns
`effectiveEnd = min closeInstant e` and
`effectiveStart = max (effectiveEnd - (e - s)) (effectiveEnd - 7 days)`,
so the effective duration equals the requested duration when that is at most
7 days and equals exactly 7 days otherwise. -/
theorem clip_for_weekend_spec (s e : ℤ) (hse : s ≤ e) :
    ((cme_weekend_status e).closed = false →
      _clip_for_weekend s e (cme_weekend_status e) = (s, e, false)) ∧
    ((cme_weekend_status e).closed = true →
      (_clip_for_weekend s e (cme_weekend_status e)).2.1
          = min (cme_weekend_status e).fridayClose e ∧
      (_clip_for_weekend s e (cme_weekend_status e)).1
          = max ((_clip_for_weekend s e (cme_weekend_status e)).2.1 - (e - s))
              ((_clip_for_weekend s e (cme_weekend_status e)).2.1
                - 7 * msPerDay) ∧
      (_clip_for_weekend s e (cme_weekend_status e)).2.2 = true ∧
      (_clip_for_weekend s e (cme_weekend_status e)).2.1
          - (_clip_for_weekend s e (cme_weekend_status e)).1
        = if e - s ≤ 7 * msPerDay then e - s else 7 * msPerDay) := by
  constructor
  · intro hcl
    simp [_clip_for_weekend, hcl]
  · intro hcl
    simp only [_clip_for_weekend, hcl, if_true]
    refine ⟨trivial, trivial, trivial, ?_⟩
    simp only [msPerDay] at *
    omega

/-- Witness for `clip_for_weekend_spec` at the concrete window
`[0, Friday 20:00 + 1 ms]` (a closed instant). -/
theorem clip_for_weekend_spec_witness :
    ((cme_weekend_status 417600001).closed = false →
      _clip_for_weekend 0 417600001 (cme_weekend_status 417600001)
        = (0, 417600001, false)) ∧
    ((cme_weekend_status 417600001).closed = true →
      (_clip_for_weekend 0 417600001 (cme_weekend_status 417600001)).2.1
          = min (cme_weekend_status 417600001).fridayClose 417600001 ∧
      (_clip_for_weekend 0 417600001 (cme_weekend_status 417600001)).1
          = max
              ((_clip_for_weekend 0 417600001
                (cme_weekend_status 417600001)).2.1 - (417600001 - 0))
              ((_clip_for_weekend 0 417600001
                (cme_weekend_status 417600001)).2.1 - 7 * msPerDay) ∧
      (_clip_for_weekend 0 417600001 (cme_weekend_status 417600001)).2.2
          = true ∧
      (_clip_for_weekend 0 417600001 (cme_weekend_status 417600001)).2.1
          - (_clip_for_weekend 0 417600001 (cme_weekend_status 417600001)).1
        = if (417600001 : ℤ) - 0 ≤ 7 * msPerDay then 417600001 - 0
          else 7 * msPerDay) :=
  clip_for_weekend_spec 0 417600001 (by norm_num)

/-- C8: a request whose end instant falls inside the weekly closure fails
with the `MarketClosed` condition exactly when the guard is on and
auto-window is off; in every other combination of closure status, guard and
auto-window the request proceeds. -/
theorem weekend_guard_rejects_iff (s e : ℤ) (guard_on auto_window : Bool) :
    weekend_guard (cme_weekend_status e) guard_on auto_window s e
        = GuardOutcome.marketClosed ↔
      ((cme_weekend_status e).closed = true ∧ guard_on = true ∧
        auto_window = false) := by
  cases hcl : (cme_weekend_status e).closed <;>
    cases guard_on <;> cases auto_window <;>
    simp [weekend_guard, hcl]

/-- C10: for every input list and every length `≤ 0`, `ema` and `rsi`
return a series of exactly one entry per input value, all of them `none`,
rather than failing. -/
theorem ema_rsi_nonpositive_length (values : List ℚ) (length : ℤ)
    (h : length ≤ 0) :
    ((ema values length).length = values.length ∧
      ∀ x ∈ ema values length, x = none) ∧
    ((rsi values length).length = values.length ∧
      ∀ x ∈ rsi values length, x = none) := by
  rw [ema, rsi, if_pos h, if_pos h]
  simp

/-- Witness for `ema_rsi_nonpositive_length` at `values = [3, 1, 4]`,
`length = -2`. -/
theorem ema_rsi_nonpositive_length_witness :
    ((ema [3, 1, 4] (-2)).length = [(3 : ℚ), 1, 4].length ∧
      ∀ x ∈ ema [3, 1, 4] (-2), x = none) ∧
    ((rsi [3, 1, 4] (-2)).length = [(3 : ℚ), 1, 4].length ∧
      ∀ x ∈ rsi [3, 1, 4] (-2), x = none) :=
  ema_rsi_nonpositive_length [3, 1, 4] (-2) (by norm_num)

/-- Counterexample to C1 as stated: with closes `[0, 6]` and `length = 2`
the EMA series value at index `length - 1 = 1` is `5`, whereas the simple
average of the first 2 closes is `3`.  The source seeds `e` with the SMA and
then still applies the update `e = (v - e) * k + e` before emitting. -/
theorem ema_seed_is_not_sma :
    (ema [0, 6] 2).get? 1 = some (some 5) ∧
    ([(0 : ℚ), 6].take 2).sum / (2 : ℚ) = 3 ∧
    (ema [0, 6] 2).get? 1 ≠ some (some (([(0 : ℚ), 6].take 2).sum / (2 : ℚ)))
    := by
  have h1 : (ema [0, 6] 2).get? 1 = some (some 5) := by
    rw [ema]
    norm_num [emaLoop, show (2 : ℤ).toNat = 2 from rfl, List.take_succ_cons,
      List.take_zero, List.sum_cons, List.sum_nil]
  have h2 : ([(0 : ℚ), 6].take 2).sum / (2 : ℚ) = 3 := by norm_num
  refine ⟨h1, h2, ?_⟩
  rw [h1, h2]
  intro h
  have := Option.some.inj (Option.some.inj h)
  norm_num at this

/-- The seeded phase of `ema`: once `e` is set, every remaining value `v`
updates it by `e = (v - e) * k + e` and the updated value is emitted. -/
def emaRec (k e : ℚ) : List ℚ → List ℚ
  | [] => []
  | v :: r => ((v - e) * k + e) :: emaRec k ((v - e) * k + e) r

lemma emaLoop_some (vals : List ℚ) (k : ℚ) (L : ℕ) :
    ∀ (rest : List ℚ) (i : ℕ) (e : ℚ),
      emaLoop vals k L rest i (some e) = (emaRec k e rest).map some := by
  intro rest
  induction rest with
  | nil => intro i e; rfl
  | cons v r ih => intro i e; rw [emaLoop, emaRec]; simp [ih]

lemma emaLoop_none (vals : List ℚ) (k : ℚ) (L : ℕ) (hL : 1 ≤ L)
    (hlen : L ≤ vals.length) :
    ∀ (d j : ℕ), L - 1 - j = d → j ≤ L - 1 →
      emaLoop vals k L (vals.drop j) j none =
        List.replicate (L - 1 - j) none ++
          (emaRec k ((vals.take L).sum / (L : ℚ))
            (vals.drop (L - 1))).map some := by
  intro d
  induction d with
  | zero =>
    intro j hd hj
    have hjeq : j = L - 1 := by omega
    subst hjeq
    have hlt : L - 1 < vals.length := by omega
    rw [List.drop_eq_getElem_cons hlt, emaLoop, if_pos (le_refl _)]
    simp only [emaLoop_some, emaRec]
    simp
  | succ d ih =>
    intro j hd hj
    have hjlt : j < L - 1 := by omega
    have hlt : j < vals.length := by omega
    rw [List.drop_eq_getElem_cons hlt, emaLoop, if_neg (by omega)]
    have hrec := ih (j + 1) (by omega) (by omega)
    rw [hrec]
    have : L - 1 - j = (L - 1 - (j + 1)) + 1 := by omega
    rw [this, List.replicate_succ]
    rfl

lemma ema_decomp (values : List ℚ) (length : ℤ) (h1 : 1 ≤ length)
    (hn : length.toNat ≤ values.length) :
    ema values length =
      List.replicate (length.toNat - 1) none ++
        (emaRec (2 / ((length : ℚ) + 1))
          ((values.take length.toNat).sum / (length.toNat : ℚ))
          (values.drop (length.toNat - 1))).map some := by
  rw [ema, if_neg (by omega)]
  have h := emaLoop_none values (2 / ((length : ℚ) + 1)) length.toNat
    (by omega) hn (length.toNat - 1) 0 (by omega) (by omega)
  simpa using h

lemma emaRec_length (k : ℚ) : ∀ (vs : List ℚ) (e : ℚ),
    (emaRec k e vs).length = vs.length := by
  intro vs
  induction vs with
  | nil => intro e; rfl
  | cons v r ih => intro e; rw [emaRec]; simp [ih]

lemma emaRec_succ (k : ℚ) : ∀ (vs : List ℚ) (e : ℚ) (i : ℕ),
    i + 1 < vs.length →
    ∃ p, (emaRec k e vs)[i]? = some p ∧
      (emaRec k e vs)[i + 1]? = some ((vs.getD (i + 1) 0 - p) * k + p) := by
  intro vs
  induction vs with
  | nil => intro e i h; simp at h
  | cons v r ih =>
    intro e i h
    match i with
    | 0 =>
      refine ⟨(v - e) * k + e, by rw [emaRec]; simp, ?_⟩
      have hr : 0 < r.length := by simpa using h
      obtain ⟨w, r', hw⟩ := List.exists_cons_of_ne_nil
        (List.ne_nil_of_length_pos hr)
      subst hw
      rw [emaRec]
      simp [emaRec]
    | j + 1 =>
      have hj : j + 1 < r.length := by simpa using h
      obtain ⟨p, hp1, hp2⟩ := ih ((v - e) * k + e) j hj
      refine ⟨p, ?_, ?_⟩
      · rw [emaRec]; simpa using hp1
      · rw [emaRec]
        simpa using hp2

/-- C1 (amended): for closes `values`, `length ≥ 1` with at least `length`
inputs, writing `k = 2/(length+1)` and `S` for the simple average of the
first `length` closes, every index before `length - 1` is `none`; the value
at index `length - 1` is `(close[length-1] - S) * k + S` (the source applies
the update once on top of the SMA seed); and for every later index `i` the
value is `(close[i] - ema[i-1]) * k + ema[i-1]`.  The series has one entry
per input. -/
theorem ema_spec (values : List ℚ) (length : ℤ)
    (h1 : 1 ≤ length) (hn : length.toNat ≤ values.length) :
    (∀ i, i < length.toNat - 1 → (ema values length)[i]? = some none) ∧
    (ema values length)[length.toNat - 1]?
        = some (some ((values.getD (length.toNat - 1) 0
            - (values.take length.toNat).sum / (length.toNat : ℚ))
              * (2 / ((length : ℚ) + 1))
            + (values.take length.toNat).sum / (length.toNat : ℚ))) ∧
    (∀ i, length.toNat - 1 < i → i < values.length →
      ∃ p, (ema values length)[i - 1]? = some (some p) ∧
        (ema values length)[i]?
          = some (some ((values.getD i 0 - p) * (2 / ((length : ℚ) + 1))
            + p))) ∧
    (ema values length).length = values.length := by
  have hd := ema_decomp values length h1 hn
  set L := length.toNat with hL
  set k : ℚ := 2 / ((length : ℚ) + 1) with hk
  set S : ℚ := (values.take L).sum / (L : ℚ) with hS
  have hrepl : (List.replicate (L - 1) (none : Option ℚ)).length = L - 1 :=
    List.length_replicate _ _
  refine ⟨?_, ?_, ?_, ?_⟩
  · intro i hi
    rw [hd, List.getElem?_append_left (by omega), List.getElem?_replicate,
      if_pos (by omega)]
  · have hlt : L - 1 < values.length := by omega
    rw [hd, List.getElem?_append_right (by omega), hrepl, Nat.sub_self,
      List.drop_eq_getElem_cons hlt, emaRec]
    simp only [List.getElem?_map, List.getElem?_cons_zero, Option.map_some']
    rw [List.getD_eq_getElem?_getD, List.getElem?_eq_getElem hlt]
    rfl
  · intro i hgt hilt
    have hj : L - 1 ≤ i - 1 := by omega
    have hj2 : L - 1 ≤ i := by omega
    have hlen : i - (L - 1) - 1 + 1 < (values.drop (L - 1)).length := by
      rw [List.length_drop]; omega
    obtain ⟨p, hp1, hp2⟩ := emaRec_succ k (values.drop (L - 1)) S
      (i - (L - 1) - 1) hlen
    refine ⟨p, ?_, ?_⟩
    · rw [hd, List.getElem?_append_right (by omega), hrepl,
        List.getElem?_map]
      have : i - 1 - (L - 1) = i - (L - 1) - 1 := by omega
      rw [this, hp1]
      rfl
    · rw [hd, List.getElem?_append_right (by omega), hrepl,
        List.getElem?_map]
      have he : i - (L - 1) = i - (L - 1) - 1 + 1 := by omega
      rw [he, hp2]
      have hidxeq : L - 1 + (i - (L - 1) - 1 + 1) = i := by omega
      have hgd : (values.drop (L - 1)).getD (i - (L - 1) - 1 + 1) 0
          = values.getD i 0 := by
        rw [List.getD_eq_getElem?_getD, List.getD_eq_getElem?_getD,
          List.getElem?_drop, hidxeq]
      rw [hgd]
      rfl
  · rw [hd]
    rw [List.length_append, hrepl, List.length_map, emaRec_length,
      List.length_drop]
    omega

/-- Witness for `ema_spec` at `values = [0, 6, 9]`, `length = 2`. -/
theorem ema_spec_witness :
    ((∀ i, i < (2 : ℤ).toNat - 1 → (ema [0, 6, 9] 2)[i]? = some none) ∧
    (ema [0, 6, 9] 2)[(2 : ℤ).toNat - 1]?
        = some (some (([(0 : ℚ), 6, 9].getD ((2 : ℤ).toNat - 1) 0
            - ([(0 : ℚ), 6, 9].take (2 : ℤ).toNat).sum / (((2 : ℤ).toNat : ℚ)))
              * (2 / (((2 : ℤ) : ℚ) + 1))
            + ([(0 : ℚ), 6, 9].take (2 : ℤ).toNat).sum
              / (((2 : ℤ).toNat : ℚ)))) ∧
    (∀ i, (2 : ℤ).toNat - 1 < i → i < [(0 : ℚ), 6, 9].length →
      ∃ p, (ema [0, 6, 9] 2)[i - 1]? = some (some p) ∧
        (ema [0, 6, 9] 2)[i]?
          = some (some (([(0 : ℚ), 6, 9].getD i 0 - p)
            * (2 / (((2 : ℤ) : ℚ) + 1)) + p))) ∧
    (ema [0, 6, 9] 2).length = [(0 : ℚ), 6, 9].length) :=
  ema_spec [0, 6, 9] 2 (by norm_num) (by norm_num)

lemma mem_range'_one {s n m : ℕ} : m ∈ List.range' s n ↔ s ≤ m ∧ m < s + n := by
  rw [List.mem_range']
  constructor
  · rintro ⟨i, hi, rfl⟩
    omega
  · rintro ⟨h1, h2⟩
    exact ⟨m - s, by omega, by omega⟩

lemma mem_ite_singleton_append {α} (a : α) (c d : Bool) (x y : α) :
    a ∈ (if c then [x] else []) ++ (if d then [y] else []) ↔
      (c = true ∧ a = x) ∨ (d = true ∧ a = y) := by
  cases c <;> cases d <;> simp

lemma all_range'_decide (p : ℕ → Prop) [DecidablePred p] (s n : ℕ) :
    ((List.range' s n).all fun kk => decide (p kk)) = true ↔
      ∀ kk, s ≤ kk → kk < s + n → p kk := by
  rw [List.all_eq_true]
  constructor
  · intro h kk h1 h2
    have := h kk (mem_range'_one.mpr ⟨h1, h2⟩)
    simpa using this
  · intro h x hx
    rw [mem_range'_one] at hx
    simp [h x hx.1 hx.2]

lemma swing_points_mem (bars : List SwingBar) (left right : ℕ) (s : Swing) :
    s ∈ _swing_points bars left right ↔
      ∃ i, left ≤ i ∧ i + right < bars.length ∧
        ((s = ⟨.swing_high, i, (bars.getD i swingDefault).h,
            (bars.getD i swingDefault).t⟩ ∧
          (∀ kk, 1 ≤ kk → kk ≤ left →
            (bars.getD (i - kk) swingDefault).h
              ≤ (bars.getD i swingDefault).h) ∧
          (∀ kk, 1 ≤ kk → kk ≤ right →
            (bars.getD (i + kk) swingDefault).h
              ≤ (bars.getD i swingDefault).h)) ∨
        (s = ⟨.swing_low, i, (bars.getD i swingDefault).l,
            (bars.getD i swingDefault).t⟩ ∧
          (∀ kk, 1 ≤ kk → kk ≤ left →
            (bars.getD i swingDefault).l
              ≤ (bars.getD (i - kk) swingDefault).l) ∧
          (∀ kk, 1 ≤ kk → kk ≤ right →
            (bars.getD i swingDefault).l
              ≤ (bars.getD (i + kk) swingDefault).l))) := by
  unfold _swing_points
  rw [List.mem_flatMap]
  constructor
  · rintro ⟨i, hir, hmem⟩
    rw [mem_range'_one] at hir
    refine ⟨i, by omega, by omega, ?_⟩
    rw [mem_ite_singleton_append] at hmem
    rcases hmem with ⟨hc, rfl⟩ | ⟨hc, rfl⟩
    · left
      rw [Bool.and_eq_true] at hc
      rw [all_range'_decide] at hc
      rw [all_range'_decide] at hc
      exact ⟨rfl, fun kk h1 h2 => hc.1 kk h1 (by omega),
        fun kk h1 h2 => hc.2 kk h1 (by omega)⟩
    · right
      rw [Bool.and_eq_true] at hc
      rw [all_range'_decide] at hc
      rw [all_range'_decide] at hc
      exact ⟨rfl, fun kk h1 h2 => hc.1 kk h1 (by omega),
        fun kk h1 h2 => hc.2 kk h1 (by omega)⟩
  · rintro ⟨i, h1, h2, hcase⟩
    refine ⟨i, mem_range'_one.mpr ⟨h1, by omega⟩, ?_⟩
    rw [mem_ite_singleton_append]
    rcases hcase with ⟨rfl, hl, hr⟩ | ⟨rfl, hl, hr⟩
    · left
      refine ⟨?_, rfl⟩
      rw [Bool.and_eq_true]
      rw [all_range'_decide, all_range'_decide]
      exact ⟨fun kk ha hb => hl kk ha (by omega),
        fun kk ha hb => hr kk ha (by omega)⟩
    · right
      refine ⟨?_, rfl⟩
      rw [Bool.and_eq_true]
      rw [all_range'_decide, all_range'_decide]
      exact ⟨fun kk ha hb => hl kk ha (by omega),
        fun kk ha hb => hr kk ha (by omega)⟩

/-- C4: the swing scanner classifies exactly the indices with at least
`left` bars before and `right` bars after whose high is ≥ every neighbor
high within `left`/`right` bars on both sides as swing highs, and
symmetrically (with ≤ on lows) as swing lows; the comparison is non-strict
(plateau ties qualify), one index may be both, and with `left = right = 0`
every bar is classified as both. -/
theorem swing_points_characterization :
    (∀ (bars : List SwingBar) (left right : ℕ) (s : Swing),
      s ∈ _swing_points bars left right ↔
        ∃ i, left ≤ i ∧ i + right < bars.length ∧
          ((s = ⟨.swing_high, i, (bars.getD i swingDefault).h,
              (bars.getD i swingDefault).t⟩ ∧
            (∀ kk, 1 ≤ kk → kk ≤ left →
              (bars.getD (i - kk) swingDefault).h
                ≤ (bars.getD i swingDefault).h) ∧
            (∀ kk, 1 ≤ kk → kk ≤ right →
              (bars.getD (i + kk) swingDefault).h
                ≤ (bars.getD i swingDefault).h)) ∨
          (s = ⟨.swing_low, i, (bars.getD i swingDefault).l,
              (bars.getD i swingDefault).t⟩ ∧
            (∀ kk, 1 ≤ kk → kk ≤ left →
              (bars.getD i swingDefault).l
                ≤ (bars.getD (i - kk) swingDefault).l) ∧
            (∀ kk, 1 ≤ kk → kk ≤ right →
              (bars.getD i swingDefault).l
                ≤ (bars.getD (i + kk) swingDefault).l)))) ∧
    (∀ (bars : List SwingBar) (i : ℕ), i < bars.length →
      (⟨.swing_high, i, (bars.getD i swingDefault).h,
        (bars.getD i swingDefault).t⟩ : Swing) ∈ _swing_points bars 0 0 ∧
      (⟨.swing_low, i, (bars.getD i swingDefault).l,
        (bars.getD i swingDefault).t⟩ : Swing) ∈ _swing_points bars 0 0) := by
  refine ⟨swing_points_mem, fun bars i hi => ⟨?_, ?_⟩⟩
  · exact (swing_points_mem bars 0 0 _).mpr
      ⟨i, by omega, by omega,
        Or.inl ⟨rfl, fun kk h1 h2 => by omega, fun kk h1 h2 => by omega⟩⟩
  · exact (swing_points_mem bars 0 0 _).mpr
      ⟨i, by omega, by omega,
        Or.inr ⟨rfl, fun kk h1 h2 => by omega, fun kk h1 h2 => by omega⟩⟩

lemma mem_ite_singleton_append_prop {α} (a : α) (c d : Prop) [Decidable c]
    [Decidable d] (x y : α) :
    a ∈ (if c then [x] else []) ++ (if d then [y] else []) ↔
      (c ∧ a = x) ∨ (d ∧ a = y) := by
  by_cases hc : c <;> by_cases hd : d <;> simp [hc, hd]

lemma fvgsAt_of_some (bars15 : List Bar15) (i : ℕ) (a c : Bar15)
    (ah al ch cl : ℚ) (ha : bars15.get? (i - 2) = some a)
    (hc : bars15.get? i = some c) (h1 : a.h = some ah) (h2 : a.l = some al)
    (h3 : c.h = some ch) (h4 : c.l = some cl) :
    fvgsAt bars15 i =
      (if ah < cl then [⟨.bullish, i, ah, cl, c.t, false, none⟩] else [])
        ++ (if ch < al then [⟨.bearish, i, ch, al, c.t, false, none⟩]
          else []) := by
  obtain ⟨ah0, al0, at0⟩ := a
  obtain ⟨ch0, cl0, ct0⟩ := c
  change ah0 = some ah at h1
  change al0 = some al at h2
  change ch0 = some ch at h3
  change cl0 = some cl at h4
  subst h1 h2 h3 h4
  rw [fvgsAt, ha, hc]

/-- C5: the imbalance scanner emits, for each index `i ≥ 2` (with both the
anchor `i-2` and confirm `i` carrying all price fields), a bullish gap with
bounds `[anchor.high, confirm.low]` exactly when `confirm.low > anchor.high`
and a bearish gap with bounds `[confirm.high, anchor.low]` exactly when
`confirm.high < anchor.low`, with `formedAt` the confirm bar's time; a bar
missing a price field participates in no emitted gap, neither as anchor nor
as confirm. -/
theorem find_fvgs_mem (bars15 : List Bar15) (g : Gap) :
    g ∈ _find_fvgs_15m bars15 ↔
      ∃ i a c, 2 ≤ i ∧ i < bars15.length ∧
        bars15.get? (i - 2) = some a ∧ bars15.get? i = some c ∧
        ∃ ah al ch cl, a.h = some ah ∧ a.l = some al ∧ c.h = some ch ∧
          c.l = some cl ∧
          ((ah < cl ∧ g = ⟨.bullish, i, ah, cl, c.t, false, none⟩) ∨
           (ch < al ∧ g = ⟨.bearish, i, ch, al, c.t, false, none⟩)) := by
  unfold _find_fvgs_15m
  rw [List.mem_flatMap]
  constructor
  · rintro ⟨i, hir, hmem⟩
    rw [mem_range'_one] at hir
    rw [fvgsAt] at hmem
    split at hmem
    · rename_i a c ha hc
      split at hmem
      · rename_i ah al ch cl h1 h2 h3 h4
        rw [mem_ite_singleton_append_prop] at hmem
        exact ⟨i, a, c, by omega, by omega, ha, hc, ah, al, ch, cl,
          h1, h2, h3, h4, hmem⟩
      · simp at hmem
    · simp at hmem
  · rintro ⟨i, a, c, hi2, hin, ha, hc, ah, al, ch, cl, h1, h2, h3, h4, hg⟩
    refine ⟨i, mem_range'_one.mpr ⟨hi2, by omega⟩, ?_⟩
    rw [fvgsAt_of_some bars15 i a c ah al ch cl ha hc h1 h2 h3 h4,
      mem_ite_singleton_append_prop]
    exact hg

lemma markFvgFill_of_no_overlap (g : Gap) :
    ∀ bars : List Bar15, (∀ b ∈ bars, ¬ gapOverlaps g b) →
      markFvgFill g bars = g := by
  intro bars
  induction bars with
  | nil => intro _; rfl
  | cons b rest ih =>
    intro h
    have hb : ¬ gapOverlaps g b := h b (List.mem_cons_self _ _)
    have hrest := fun b' hb' => h b' (List.mem_cons_of_mem _ hb')
    obtain ⟨bh, bl, bt⟩ := b
    match bh, bl with
    | some hh, some ll =>
      rw [markFvgFill, if_neg]
      · exact ih hrest
      · rintro ⟨h1, h2⟩
        exact hb ⟨hh, ll, rfl, rfl, h1, h2⟩
    | some hh, none => exact ih hrest
    | none, bl => exact ih hrest

lemma markFvgFill_first_overlap (g : Gap) :
    ∀ (pre : List Bar15) (b : Bar15) (post : List Bar15),
      (∀ b' ∈ pre, ¬ gapOverlaps g b') → gapOverlaps g b →
      markFvgFill g (pre ++ b :: post)
        = { g with filled := true, filled_at := b.t } := by
  intro pre
  induction pre with
  | nil =>
    intro b post _ hov
    obtain ⟨hh, ll, he1, he2, h1, h2⟩ := hov
    obtain ⟨bh, bl, bt⟩ := b
    change bh = some hh at he1
    change bl = some ll at he2
    subst he1 he2
    rw [List.nil_append, markFvgFill, if_pos ⟨h1, h2⟩]
  | cons p pre' ih =>
    intro b post hpre hov
    have hp : ¬ gapOverlaps g p := hpre p (List.mem_cons_self _ _)
    have hpre' := fun b' hb' => hpre b' (List.mem_cons_of_mem _ hb')
    obtain ⟨ph, pl, pt⟩ := p
    match ph, pl with
    | some hh, some ll =>
      rw [List.cons_append, markFvgFill, if_neg]
      · exact ih b post hpre' hov
      · rintro ⟨h1, h2⟩
        exact hp ⟨hh, ll, rfl, rfl, h1, h2⟩
    | some hh, none => exact ih b post hpre' hov
    | none, pl => exact ih b post hpre' hov

lemma markFvgFill_append_of_filled (g : Gap) (hf : g.filled = false) :
    ∀ (bars more : List Bar15), (markFvgFill g bars).filled = true →
      markFvgFill g (bars ++ more) = markFvgFill g bars := by
  intro bars
  induction bars with
  | nil =>
    intro more h
    rw [markFvgFill] at h
    rw [hf] at h
    exact absurd h (by simp)
  | cons b rest ih =>
    intro more h
    obtain ⟨bh, bl, bt⟩ := b
    match bh, bl with
    | some hh, some ll =>
      by_cases hc : ll ≤ g.hi ∧ g.lo ≤ hh
      · rw [List.cons_append, markFvgFill, if_pos hc, markFvgFill, if_pos hc]
      · rw [markFvgFill, if_neg hc] at h
        rw [List.cons_append, markFvgFill, if_neg hc, markFvgFill,
          if_neg hc]
        exact ih more h
    | some hh, none =>
      rw [markFvgFill] at h
      rw [List.cons_append, markFvgFill, markFvgFill]
      exact ih more h
    | none, bl =>
      rw [markFvgFill] at h
      rw [List.cons_append, markFvgFill, markFvgFill]
      exact ih more h

/-- C6: for every imbalance (initially unfilled) and list of bars strictly
after its confirm bar, fill detection marks the imbalance filled at the time
of the first bar whose range overlaps the bounds and stops there; if no bar
overlaps (including an empty tail) the imbalance stays unfilled with
`filled_at = none`; and once filled, scanning further appended bars changes
nothing. -/
theorem mark_fvg_fill_spec (g : Gap) (bars more : List Bar15)
    (hf : g.filled = false) (ha : g.filled_at = none) :
    ((∀ b ∈ bars, ¬ gapOverlaps g b) →
      markFvgFill g bars = g ∧ (markFvgFill g bars).filled = false ∧
        (markFvgFill g bars).filled_at = none) ∧
    (∀ (pre : List Bar15) (b : Bar15) (post : List Bar15),
      bars = pre ++ b :: post → (∀ b' ∈ pre, ¬ gapOverlaps g b') →
      gapOverlaps g b →
      markFvgFill g bars = { g with filled := true, filled_at := b.t }) ∧
    ((markFvgFill g bars).filled = true →
      markFvgFill g (bars ++ more) = markFvgFill g bars) := by
  refine ⟨?_, ?_, markFvgFill_append_of_filled g hf bars more⟩
  · intro h
    have he := markFvgFill_of_no_overlap g bars h
    rw [he]
    exact ⟨rfl, hf, ha⟩
  · rintro pre b post rfl hpre hov
    exact markFvgFill_first_overlap g pre b post hpre hov

/-- Witness for `mark_fvg_fill_spec`: the gap `[1, 2]` scanned against one
overlapping bar (high 3, low 0, time 7) and one appended irrelevant bar. -/
theorem mark_fvg_fill_spec_witness :
    ((∀ b ∈ [(⟨some 3, some 0, some 7⟩ : Bar15)],
        ¬ gapOverlaps ⟨.bullish, 2, 1, 2, none, false, none⟩ b) →
      markFvgFill ⟨.bullish, 2, 1, 2, none, false, none⟩
          [(⟨some 3, some 0, some 7⟩ : Bar15)]
        = ⟨.bullish, 2, 1, 2, none, false, none⟩ ∧
      (markFvgFill ⟨.bullish, 2, 1, 2, none, false, none⟩
          [(⟨some 3, some 0, some 7⟩ : Bar15)]).filled = false ∧
      (markFvgFill ⟨.bullish, 2, 1, 2, none, false, none⟩
          [(⟨some 3, some 0, some 7⟩ : Bar15)]).filled_at = none) ∧
    (∀ (pre : List Bar15) (b : Bar15) (post : List Bar15),
      [(⟨some 3, some 0, some 7⟩ : Bar15)] = pre ++ b :: post →
      (∀ b' ∈ pre, ¬ gapOverlaps ⟨.bullish, 2, 1, 2, none, false, none⟩ b') →
      gapOverlaps ⟨.bullish, 2, 1, 2, none, false, none⟩ b →
      markFvgFill ⟨.bullish, 2, 1, 2, none, false, none⟩
          [(⟨some 3, some 0, some 7⟩ : Bar15)]
        = ⟨.bullish, 2, 1, 2, none, true, b.t⟩) ∧
    ((markFvgFill ⟨.bullish, 2, 1, 2, none, false, none⟩
        [(⟨some 3, some 0, some 7⟩ : Bar15)]).filled = true →
      markFvgFill ⟨.bullish, 2, 1, 2, none, false, none⟩
          ([(⟨some 3, some 0, some 7⟩ : Bar15)]
            ++ [(⟨some 9, some 8, some 8⟩ : Bar15)])
        = markFvgFill ⟨.bullish, 2, 1, 2, none, false, none⟩
            [(⟨some 3, some 0, some 7⟩ : Bar15)]) :=
  mark_fvg_fill_spec ⟨.bullish, 2, 1, 2, none, false, none⟩
    [⟨some 3, some 0, some 7⟩] [⟨some 9, some 8, some 8⟩] rfl rfl

lemma breachScan_append_of_true (level_price : ℚ) (breach_type : SwingType) :
    ∀ (l m : List Bar15), (breachScan level_price breach_type l).1 = true →
      breachScan level_price breach_type (l ++ m)
        = breachScan level_price breach_type l := by
  intro l m
  induction l with
  | nil => intro h; simp [breachScan] at h
  | cons b rest ih =>
    intro h
    rw [breachScan] at h
    rw [List.cons_append, breachScan, breachScan]
    split_ifs at h ⊢ with h1 h2
    · rfl
    · rfl
    · exact ih h

/-- C7: breach detection is monotonic in the bar sequence: if the scan
reports a swing level taken on `bars`, it reports the identical result
(taken, same breach time) on every extension of `bars` by appended bars, so
appending bars can flip an untaken level to taken but never the reverse. -/
theorem breached_after_monotonic (bars more : List Bar15) (level_price : ℚ)
    (start_idx : ℕ) (breach_type : SwingType)
    (h : (_breached_after bars level_price start_idx breach_type).1 = true) :
    _breached_after (bars ++ more) level_price start_idx breach_type
      = _breached_after bars level_price start_idx breach_type := by
  unfold _breached_after at h ⊢
  rw [List.drop_append_eq_append_drop]
  exact breachScan_append_of_true level_price breach_type _ _ h

/-- Witness for `breached_after_monotonic`: level 10 swing high formed at
index 0 of two bars, breached by the second bar (high 20), extended by one
later bar. -/
theorem breached_after_monotonic_witness :
    _breached_after
        ([⟨some 10, some 9, some 0⟩, ⟨some 20, some 15, some 1⟩]
          ++ [(⟨some 5, some 4, some 2⟩ : Bar15)]) 10 0 .swing_high
      = _breached_after
          [⟨some 10, some 9, some 0⟩, ⟨some 20, some 15, some 1⟩]
          10 0 .swing_high :=
  breached_after_monotonic
    [⟨some 10, some 9, some 0⟩, ⟨some 20, some 15, some 1⟩]
    [⟨some 5, some 4, some 2⟩] 10 0 .swing_high
    (by norm_num [_breached_after, breachScan, breachEps])

/-- The typical price `(high + low + close) / 3` of each bar. -/
def typical_prices (bars : List VwapBar) : List ℚ :=
  bars.map fun b => (b.h + b.l + b.c) / 3

lemma vwapGo_length : ∀ (bars : List VwapBar) (pv cv : ℚ),
    (vwapGo pv cv bars).length = bars.length := by
  intro bars
  induction bars with
  | nil => intro pv cv; rfl
  | cons b rest ih => intro pv cv; rw [vwapGo]; simp [ih]

lemma vwapGo_uniform (v0 : ℚ) (hv : 0 < v0) :
    ∀ (bars : List VwapBar) (a : ℚ) (m : ℕ),
      (∀ b ∈ bars, b.v = v0) → ∀ i, i < bars.length →
        ((vwapGo (v0 * a) (v0 * (m : ℚ)) bars)[i]?).map VwapPoint.vwap
          = some ((a + ((typical_prices bars).take (i + 1)).sum)
              / ((m : ℚ) + (i : ℚ) + 1)) := by
  intro bars
  induction bars with
  | nil => intro a m h i hi; simp at hi
  | cons b rest ih =>
    intro a m h i hi
    have hbv : b.v = v0 := h b (List.mem_cons_self _ _)
    have hrest : ∀ x ∈ rest, x.v = v0 :=
      fun x hx => h x (List.mem_cons_of_mem _ hx)
    have hcv : (0 : ℚ) < v0 * (m : ℚ) + v0 := by
      have h0 : (0 : ℚ) ≤ v0 * (m : ℚ) := by positivity
      linarith
    have hpveq : v0 * a + (b.h + b.l + b.c) / 3 * b.v
        = v0 * (a + (b.h + b.l + b.c) / 3) := by rw [hbv]; ring
    have hcveq : v0 * (m : ℚ) + b.v = v0 * ((m + 1 : ℕ) : ℚ) := by
      rw [hbv]; push_cast; ring
    match i with
    | 0 =>
      rw [vwapGo]
      simp only [List.getElem?_cons_zero, Option.map_some']
      rw [if_pos (show (0 : ℚ) < v0 * (m : ℚ) + b.v by rw [hbv]; exact hcv)]
      rw [typical_prices]
      simp only [List.map_cons, List.take_succ_cons, List.take_zero,
        List.sum_cons, List.sum_nil, add_zero, Nat.cast_zero]
      rw [show v0 * a + (b.h + b.l + b.c) / 3 * b.v
          = v0 * (a + (b.h + b.l + b.c) / 3) by rw [hbv]; ring]
      rw [show v0 * (m : ℚ) + b.v = v0 * ((m : ℚ) + 1) by rw [hbv]; ring]
      rw [mul_div_mul_left _ _ (ne_of_gt hv)]
    | j + 1 =>
      rw [vwapGo]
      simp only [List.getElem?_cons_succ]
      rw [hpveq, hcveq]
      have hj : j < rest.length := by simpa using hi
      rw [ih (a + (b.h + b.l + b.c) / 3) (m + 1) hrest j hj]
      congr 1
      have htp : typical_prices (b :: rest)
          = (b.h + b.l + b.c) / 3 :: typical_prices rest := rfl
      rw [htp, List.take_succ_cons, List.sum_cons]
      push_cast
      ring_nf

/-- C9: for every non-empty bar sequence of uniform strictly positive
volume, the VWAP value at each index `i` equals the arithmetic mean of the
typical prices of bars `0..i`, and the final VWAP equals the mean typical
price of the whole sequence. -/
theorem compute_vwap_uniform (bars : List VwapBar) (v0 : ℚ)
    (hne : bars ≠ []) (huni : ∀ b ∈ bars, b.v = v0) (hv : 0 < v0) :
    (∀ i, i < bars.length →
      (((compute_vwap bars).series[i]?).map VwapPoint.vwap)
        = some (((typical_prices bars).take (i + 1)).sum
            / ((i : ℚ) + 1))) ∧
    (compute_vwap bars).final
      = (typical_prices bars).sum / (bars.length : ℚ) := by
  have hser : (compute_vwap bars).series = vwapGo 0 0 bars := rfl
  have hkey : ∀ i, i < bars.length →
      ((vwapGo 0 0 bars)[i]?).map VwapPoint.vwap
        = some (((typical_prices bars).take (i + 1)).sum / ((i : ℚ) + 1)) := by
    intro i hi
    have h := vwapGo_uniform v0 hv bars 0 0 huni i hi
    rw [mul_zero, Nat.cast_zero, mul_zero] at h
    rw [h]
    norm_num
  constructor
  · intro i hi
    rw [hser]
    exact hkey i hi
  · have hn : 0 < bars.length := List.length_pos.mpr hne
    have hfin : (compute_vwap bars).final
        = (((vwapGo 0 0 bars).getLast?).map VwapPoint.vwap).getD 0 := rfl
    rw [hfin, List.getLast?_eq_getElem?, vwapGo_length]
    have hlast := hkey (bars.length - 1) (by omega)
    rw [hlast]
    have htake : (typical_prices bars).take (bars.length - 1 + 1)
        = typical_prices bars := by
      apply List.take_of_length_le
      rw [typical_prices, List.length_map]
      omega
    rw [htake]
    have hcast : ((bars.length - 1 : ℕ) : ℚ) + 1 = (bars.length : ℚ) := by
      have : (1 : ℕ) ≤ bars.length := hn
      push_cast [Nat.cast_sub this]
      ring
    rw [hcast]
    rfl

/-- Witness for `compute_vwap_uniform` at two bars of volume 5. -/
theorem compute_vwap_uniform_witness :
    ((∀ i, i < [(⟨1, 2, 3, 5, 0⟩ : VwapBar), ⟨2, 3, 4, 5, 1⟩].length →
      (((compute_vwap [(⟨1, 2, 3, 5, 0⟩ : VwapBar), ⟨2, 3, 4, 5, 1⟩]).series[i]?).map
          VwapPoint.vwap)
        = some (((typical_prices
            [(⟨1, 2, 3, 5, 0⟩ : VwapBar), ⟨2, 3, 4, 5, 1⟩]).take (i + 1)).sum
              / ((i : ℚ) + 1))) ∧
    (compute_vwap [(⟨1, 2, 3, 5, 0⟩ : VwapBar), ⟨2, 3, 4, 5, 1⟩]).final
      = (typical_prices [(⟨1, 2, 3, 5, 0⟩ : VwapBar), ⟨2, 3, 4, 5, 1⟩]).sum
          / (([(⟨1, 2, 3, 5, 0⟩ : VwapBar), ⟨2, 3, 4, 5, 1⟩].length : ℚ))) :=
  compute_vwap_uniform [⟨1, 2, 3, 5, 0⟩, ⟨2, 3, 4, 5, 1⟩] 5 (by simp)
    (by
      intro b hb
      simp only [List.mem_cons, List.not_mem_nil, or_false] at hb
      rcases hb with rfl | rfl <;> rfl)
    (by norm_num)
